import Mathlib

/-!
# Shallow embedding of the Advanced RAG retrieval pipeline

This file embeds the retrieval/reranking core of
`backend/src/rag/rag_service.py` (class `EmailRAGService`) and proves
properties of it.  External collaborators (ChromaDB's vector index, the
sentence-transformer embedder, the cross-encoder, the `rank_bm25` library)
are passed in as explicit function parameters, mirroring the attribute
accesses (`self.cross_encoder.predict`, `self.embed_text`, ...) of the
source.  Real-valued scores are modelled over `ℚ` so that everything is
executable; the cosine-similarity helper, whose zero-norm guard involves a
square root, is modelled over `ℝ`.
-/

/-- A row produced by `search_similar_emails` (lines 838-845): it always
carries `id`, `text` and `distance` keys (`metadata` is omitted here, no
claim concerns it).  `distance` is the raw L2 distance from the vector
index. -/
structure VecHit where
  id : String
  text : String
  distance : ℚ
deriving DecidableEq, Repr

/-- A candidate dictionary as it flows through the pipeline.  In the
source these are Python dicts whose score keys are added stage by stage;
`Option` models a possibly-absent key. -/
structure Candidate where
  id : String
  text : String
  distance : Option ℚ
  hybrid_score : Option ℚ
  vector_score : Option ℚ
  bm25_score : Option ℚ
  cross_encoder_score : Option ℚ
  mmr_score : Option ℚ
deriving DecidableEq, Repr

/-- The dict built for a vector hit by `search_similar_emails`: only
`id`, `text`, `distance` (and metadata) are present. -/
def VecHit.toCandidate (h : VecHit) : Candidate :=
  { id := h.id, text := h.text, distance := some h.distance,
    hybrid_score := none, vector_score := none, bm25_score := none,
    cross_encoder_score := none, mmr_score := none }

/-- `AdvancedRAGConfig` (lines 54-83).  `rerank_model` (a model name
string) is omitted: it only selects the external cross-encoder. -/
structure AdvancedRAGConfig where
  use_threshold : Bool := true
  distance_threshold : ℚ := 12
  use_hybrid : Bool := true
  vector_weight : ℚ := 7/10
  bm25_weight : ℚ := 3/10
  use_reranking : Bool := true
  rerank_top_k : ℕ := 10
  use_mmr : Bool := true
  mmr_lambda : ℚ := 7/10
  final_top_k : ℕ := 3

/-- `_apply_threshold` (lines 370-387):
`[r for r in results if r.get('distance', float('inf')) <= threshold]`.
A missing `distance` key defaults to `+inf`, which is `<= threshold` for
no finite threshold, so such a candidate is dropped. -/
def _apply_threshold (results : List Candidate) (threshold : ℚ) : List Candidate :=
  results.filter fun r =>
    match r.distance with
    | some d => decide (d ≤ threshold)
    | none => false

/-- `search_similar_emails` (lines 805-851).  `collection` is `none` when
`get_collection` returned `None` (missing collection); `query_rows n`
models the external `collection.query(..., n_results=n)` call, `.error`
modelling a raised exception (caught and turned into `[]`). -/
def search_similar_emails (collection : Option Unit)
    (query_rows : ℕ → Except Unit (List VecHit)) (n_results : ℕ) : List VecHit :=
  match collection with
  | none => []
  | some _ =>
    match query_rows n_results with
    | .error _ => []
    | .ok rows => rows

/-- The distance-to-similarity transform of line 440:
`similarity = 1 / (1 + r['distance'])`. -/
def simOfDistance (d : ℚ) : ℚ := 1 / (1 + d)

/-- BM25 score normalization (lines 433-434):
`max_bm25 = max(bm25_scores) if max(bm25_scores) > 0 else 1` followed by
`bm25_scores / max_bm25`.  `List.foldr max 0` agrees with Python's `max`
whenever the guard matters: if Python's max is positive they coincide,
and otherwise both branches divide by 1. -/
def normalizeBm25 (scores : List ℚ) : List ℚ :=
  let m := scores.foldr max 0
  let max_bm25 := if 0 < m then m else 1
  scores.map (· / max_bm25)

/-- Python-dict insertion on an association list: overwrite the value in
place when the key exists, append otherwise. -/
def dictInsert {α : Type} (m : List (String × α)) (k : String) (v : α) :
    List (String × α) :=
  if m.any (fun p => p.1 == k) then
    m.map (fun p => if p.1 == k then (k, v) else p)
  else m ++ [(k, v)]

/-- Python-dict lookup with default: `m.get(k, d)`. -/
def dictGetD (m : List (String × ℚ)) (k : String) (d : ℚ) : ℚ :=
  match m.find? (fun p => p.1 == k) with
  | some p => p.2
  | none => d

/-- The `vector_scores` dict of lines 437-444, keyed by document id;
we keep the whole `VecHit` as the stored `data` (its similarity is
recomputed from `distance` where needed). -/
def buildVectorScores (vector_results : List VecHit) : List (String × VecHit) :=
  vector_results.foldl (fun m r => dictInsert m r.id r) []

/-- `bm25_score_map = {ids[i]: bm25_scores_norm[i] ...}` (line 447). -/
def bm25ScoreMap (ids : List String) (norm : List ℚ) : List (String × ℚ) :=
  (ids.zip norm).foldl (fun m p => dictInsert m p.1 p.2) []

/-- One entry of `hybrid_results` (lines 454-467): the vector hit's dict,
copied, with `hybrid_score`, `vector_score` and `bm25_score` added. -/
def hybridEntry (vector_weight bm25_weight : ℚ) (bm : List (String × ℚ))
    (r : VecHit) : Candidate :=
  let v_score := simOfDistance r.distance
  let b_score := dictGetD bm r.id 0
  { r.toCandidate with
      hybrid_score := some (vector_weight * v_score + bm25_weight * b_score),
      vector_score := some v_score,
      bm25_score := some b_score }

/-- The full `hybrid_results` list before sorting.  The loop of lines
453-467 iterates the `vector_scores` dict (whose keys are unique, so the
`seen_ids` guard never fires) and only ever emits entries for vector-side
documents; BM25-only ids are consulted through `bm25_score_map.get` but
never appended. -/
def hybridList (vector_weight bm25_weight : ℚ) (bm : List (String × ℚ))
    (vector_results : List VecHit) : List Candidate :=
  (buildVectorScores vector_results).map fun p =>
    hybridEntry vector_weight bm25_weight bm p.2

/-- Comparison used by line 470's
`hybrid_results.sort(key=..., reverse=True)`: descending by
`hybrid_score` (every entry carries the key; `getD 0` is never reached
on `none` there). -/
def hybridGe (x y : Candidate) : Prop :=
  (y.hybrid_score.getD 0) ≤ (x.hybrid_score.getD 0)

instance : DecidableRel hybridGe := fun x y =>
  inferInstanceAs (Decidable ((y.hybrid_score.getD 0) ≤ (x.hybrid_score.getD 0)))

instance : IsTotal Candidate hybridGe := ⟨fun _ _ => le_total _ _⟩

instance : IsTrans Candidate hybridGe := ⟨fun _ _ _ h1 h2 => le_trans h2 h1⟩

/-- Stable descending sort of line 470.  Python's `list.sort` is stable,
so it agrees with stable insertion sort on the same key comparison. -/
def sortByHybrid (l : List Candidate) : List Candidate :=
  l.insertionSort hybridGe

/-- The external BM25 index behaviour for one query: `ids` is the
collection's id list, `scores` the aligned `bm25.get_scores(query)`
output (lines 426-430). -/
structure Bm25Index where
  ids : List String
  scores : List ℚ
deriving DecidableEq, Repr

/-- `_hybrid_search` (lines 389-473).  `search` stands for
`self.search_similar_emails` (already including the external vector
index), `bm25_available` for the module flag `BM25_AVAILABLE`, and
`bm25_index` for `self._build_bm25_index(collection_name)` combined with
`bm25.get_scores(tokenized_query)` (`none` when the index build returned
`None`). -/
def _hybrid_search (search : String → ℕ → List VecHit)
    (bm25_available : Bool) (bm25_index : Option Bm25Index)
    (query : String) (n_results : ℕ)
    (vector_weight bm25_weight : ℚ) : List Candidate :=
  let vector_results := search query (n_results * 2)
  if !bm25_available then
    (vector_results.map VecHit.toCandidate).take n_results
  else
    match bm25_index with
    | none => (vector_results.map VecHit.toCandidate).take n_results
    | some idx =>
      let norm := normalizeBm25 idx.scores
      let bm := bm25ScoreMap idx.ids norm
      (sortByHybrid (hybridList vector_weight bm25_weight bm vector_results)).take n_results

/-- The cross-encoder input pairs of line 499:
`pairs = [(query, r['text']) for r in results if r.get('text')]` — one
pair per candidate with non-empty text, in candidate order. -/
def cePairs (query : String) (results : List Candidate) : List (String × String) :=
  results.filterMap fun r => if r.text ≠ "" then some (query, r.text) else none

/-- Score assignment of lines 509-511: `ce_scores[i]` is written to
`results[i]` — indexed over the UNFILTERED candidate list — guarded by
`if i < len(ce_scores)`. -/
def assignCeScores (results : List Candidate) (ce_scores : List ℚ) : List Candidate :=
  results.enum.map fun p =>
    match ce_scores.get? p.1 with
    | some s => { p.2 with cross_encoder_score := some s }
    | none => p.2

/-- The sort key `x.get('cross_encoder_score', -float('inf'))` of line
515: a missing score is `-inf`, modelled as the bottom of `WithBot ℚ`. -/
def ceKey (r : Candidate) : WithBot ℚ :=
  match r.cross_encoder_score with
  | none => ⊥
  | some x => (x : WithBot ℚ)

/-- Comparison used by the `sorted(..., reverse=True)` of lines 513-517:
descending by cross-encoder score with missing scores last. -/
def rerankGe (x y : Candidate) : Prop := ceKey y ≤ ceKey x

instance : DecidableRel rerankGe := fun x y =>
  inferInstanceAs (Decidable (ceKey y ≤ ceKey x))

instance : IsTotal Candidate rerankGe := ⟨fun _ _ => le_total _ _⟩

instance : IsTrans Candidate rerankGe := ⟨fun _ _ _ h1 h2 => le_trans h2 h1⟩

/-- `_rerank_with_cross_encoder` (lines 475-524).  `predict` stands for
`self.cross_encoder.predict`; a `.error` result models a raised
exception, caught by the `except` of lines 522-524 which falls back to
`results[:top_k]`. -/
def _rerank_with_cross_encoder
    (predict : List (String × String) → Except Unit (List ℚ))
    (query : String) (results : List Candidate) (top_k : ℕ) : List Candidate :=
  if results.isEmpty then []
  else
    let pairs := cePairs query results
    if pairs.isEmpty then results.take top_k
    else
      match predict pairs with
      | .error _ => results.take top_k
      | .ok ce_scores =>
        ((assignCeScores results ce_scores).insertionSort rerankGe).take top_k

/-- The per-candidate embeddings of lines 552-558: `embed r['text']` when
the text is non-empty ("truthy"), `None` otherwise.  `embed` stands for
`self.embed_text`. -/
def docEmbeddings (embed : String → List ℚ) (results : List Candidate) :
    List (Option (List ℚ)) :=
  results.map fun r => if r.text ≠ "" then some (embed r.text) else none

/-- `doc_embeddings[i]`, flattening the index lookup with the stored
`Option`. -/
def embAt (embs : List (Option (List ℚ))) (i : ℕ) : Option (List ℚ) :=
  (embs.get? i).join

/-- `max_sim_to_selected` of lines 576-581: maximum similarity of `e` to
the already-selected embeddings, starting at 0 (also 0 when nothing is
selected yet: folding over the empty selection). -/
def redundancy (cos : List ℚ → List ℚ → ℚ) (embs : List (Option (List ℚ)))
    (sel : List ℕ) (e : List ℚ) : ℚ :=
  sel.foldl (fun acc i =>
    match embAt embs i with
    | some se => max acc (cos e se)
    | none => acc) 0

/-- Line 584: `mmr_score = λ * relevance - (1-λ) * max_sim_to_selected`. -/
def mmrScore (cos : List ℚ → List ℚ → ℚ) (qe : List ℚ)
    (embs : List (Option (List ℚ))) (lam : ℚ) (sel : List ℕ) (e : List ℚ) : ℚ :=
  lam * cos qe e - (1 - lam) * redundancy cos embs sel e

/-- One step of the inner argmax loop (lines 568-588): skip selected or
embedding-less candidates, keep the best strictly-greater score (ties
keep the earlier index).  The code's `-inf` initial best is modelled by
`none`, which any score beats. -/
def mmrStep (cos : List ℚ → List ℚ → ℚ) (qe : List ℚ)
    (embs : List (Option (List ℚ))) (lam : ℚ) (sel : List ℕ)
    (best : Option (ℕ × ℚ)) (i : ℕ) : Option (ℕ × ℚ) :=
  if sel.contains i then best
  else
    match embAt embs i with
    | some e =>
      let s := mmrScore cos qe embs lam sel e
      match best with
      | none => some (i, s)
      | some p => if p.2 < s then some (i, s) else best
    | none => best

/-- The full inner loop: argmax of the MMR score over unselected
embeddable indices (`best_idx`, `best_score`), `none` when no candidate
is eligible (`best_idx == -1`). -/
def pickBest (cos : List ℚ → List ℚ → ℚ) (qe : List ℚ)
    (embs : List (Option (List ℚ))) (lam : ℚ) (sel : List ℕ) : Option (ℕ × ℚ) :=
  (List.range embs.length).foldl (mmrStep cos qe embs lam sel) none

/-- The outer loop of lines 564-593: `min(top_k, len(results))`
iterations, each either appending the best pick (index and score) or,
when `best_idx` stays `-1`, doing nothing for that iteration. -/
def mmrLoop (cos : List ℚ → List ℚ → ℚ) (qe : List ℚ)
    (embs : List (Option (List ℚ))) (lam : ℚ) :
    ℕ → List ℕ → List (ℕ × ℚ) → List (ℕ × ℚ)
  | 0, _, acc => acc
  | fuel + 1, sel, acc =>
    match pickBest cos qe embs lam sel with
    | none => mmrLoop cos qe embs lam fuel sel acc
    | some p => mmrLoop cos qe embs lam fuel (sel ++ [p.1]) (acc ++ [p])

/-- `_apply_mmr` (lines 526-596).  `cos` stands for
`self._cosine_similarity` and `embed` for `self.embed_text` (both
attribute calls of the source; the embedder is external).  The selected
candidates are returned in selection order, each with its `mmr_score`
written (line 591). -/
def _apply_mmr (cos : List ℚ → List ℚ → ℚ) (embed : String → List ℚ)
    (query_embedding : List ℚ) (results : List Candidate)
    (lambda_param : ℚ) (top_k : ℕ) : List Candidate :=
  if results.length ≤ top_k then results.take top_k
  else
    let embs := docEmbeddings embed results
    let picks := mmrLoop cos query_embedding embs lambda_param
      (min top_k results.length) [] []
    picks.filterMap fun p =>
      match results.get? p.1 with
      | some r => some { r with mmr_score := some p.2 }
      | none => none

/-- Sum of squares of a vector, so that `norm2 = Real.sqrt ∘ sumSq` is
`np.linalg.norm` on the list. -/
noncomputable def sumSq (v : List ℝ) : ℝ := (v.map fun x => x * x).sum

/-- `np.linalg.norm(a)` on a 1-D array: the Euclidean norm. -/
noncomputable def norm2 (v : List ℝ) : ℝ := Real.sqrt (sumSq v)

/-- `np.dot(a, b)` on equal-length 1-D arrays. -/
noncomputable def dotList (a b : List ℝ) : ℝ :=
  ((a.zip b).map fun p => p.1 * p.2).sum

/-- `_cosine_similarity` (lines 598-604): return `0.0` when either norm
is zero, otherwise `dot / (norm_a * norm_b)`. -/
noncomputable def _cosine_similarity (a b : List ℝ) : ℝ :=
  if norm2 a = 0 ∨ norm2 b = 0 then 0
  else dotList a b / (norm2 a * norm2 b)

/-- Step 1 of `advanced_search` (lines 635-647): hybrid retrieval when
enabled and BM25 is importable, plain vector retrieval otherwise, with
the pool size `rerank_top_k` (when reranking) or `final_top_k * 2`. -/
def initialRetrieve (search : String → ℕ → List VecHit)
    (bm25_available : Bool) (bm25_index : Option Bm25Index)
    (query : String) (cfg : AdvancedRAGConfig) : List Candidate :=
  let n := if cfg.use_reranking then cfg.rerank_top_k else cfg.final_top_k * 2
  if cfg.use_hybrid && bm25_available then
    _hybrid_search search bm25_available bm25_index query n
      cfg.vector_weight cfg.bm25_weight
  else
    (search query n).map VecHit.toCandidate

/-- `advanced_search` (lines 610-675): the four stages in sequence, with
the two early returns `if not results: return []` of lines 649-650 and
656-657, and the final truncation to `final_top_k`. -/
def advanced_search (search : String → ℕ → List VecHit)
    (bm25_available : Bool) (bm25_index : Option Bm25Index)
    (predict : List (String × String) → Except Unit (List ℚ))
    (cos : List ℚ → List ℚ → ℚ) (embed : String → List ℚ)
    (query : String) (cfg : AdvancedRAGConfig) : List Candidate :=
  let results := initialRetrieve search bm25_available bm25_index query cfg
  if results.isEmpty then []
  else
    let results :=
      if cfg.use_threshold then _apply_threshold results cfg.distance_threshold
      else results
    if results.isEmpty then []
    else
      let results :=
        if cfg.use_reranking then
          _rerank_with_cross_encoder predict query results
            (if cfg.use_mmr then cfg.final_top_k * 2 else cfg.final_top_k)
        else results
      let results :=
        if cfg.use_mmr && decide (cfg.final_top_k < results.length) then
          _apply_mmr cos embed (embed query) results cfg.mmr_lambda cfg.final_top_k
        else results
      results.take cfg.final_top_k

/-! ## Concrete inputs used in scenario, witness and counterexample theorems -/

/-- A bare candidate dict with only `id`, `text` and (optionally)
`distance` set, as produced by retrieval. -/
def mkCand (i t : String) (d : Option ℚ) : Candidate :=
  ⟨i, t, d, none, none, none, none, none⟩

/-- The spec's scenario collection: five documents at vector distances
1, 5, 9, 13, 20 from the query. -/
def thresholdScenario : List Candidate :=
  [mkCand "d1" "t" (some 1), mkCand "d2" "t" (some 5), mkCand "d3" "t" (some 9),
   mkCand "d4" "t" (some 13), mkCand "d5" "t" (some 20)]

/-- A lexical-only candidate: no `distance` key at all. -/
def noDistCand : Candidate := mkCand "x" "t" none

def emptyTextCand : Candidate := mkCand "e" "" none

def fullTextCand : Candidate := mkCand "t" "T" none

/-- A cross-encoder stub that scores every pair 5. -/
def constFivePredict : List (String × String) → Except Unit (List ℚ) :=
  fun ps => .ok (ps.map fun _ => 5)

/-- A cross-encoder stub whose `predict` always raises. -/
def failingPredict : List (String × String) → Except Unit (List ℚ) :=
  fun _ => .error ()

def cexCand1 : Candidate := mkCand "r1" "a" none

def cexCand2 : Candidate := mkCand "r2" "b" none

/-- Dot product over rational vectors; on the unit vectors used in the
concrete MMR inputs below it coincides with cosine similarity, while
staying rational-valued. -/
def dotQ (a b : List ℚ) : ℚ := ((a.zip b).map fun p => p.1 * p.2).sum

/-- Embedder stub used in the MMR counterexamples: text `e2` maps to
`[1,0]`, anything else to `[0,1]`. -/
def cexEmbed : String → List ℚ := fun t => if t = "e2" then [1, 0] else [0, 1]

def mmrCand1 : Candidate := mkCand "c1" "e1" none

def mmrCand2 : Candidate := mkCand "c2" "e2" none

/-- An embedder stub mapping every text to the unit vector `[1]`. -/
def oneEmbed : String → List ℚ := fun _ => [1]

def noEmbA : Candidate := mkCand "a" "" none

def embB : Candidate := mkCand "b" "tb" none

def noEmbC : Candidate := mkCand "c" "" none

def monoHitU : VecHit := ⟨"u", "tu", 1⟩

def monoHitV : VecHit := ⟨"v", "tv", 3⟩

def monoSearch : String → ℕ → List VecHit := fun _ _ => [monoHitU, monoHitV]

def monoIndex : Bm25Index := ⟨["u", "v"], [0, 0]⟩

def monoCu : Candidate := ⟨"u", "tu", some 1, some (7/20), some (1/2), some 0, none, none⟩

def monoCv : Candidate := ⟨"v", "tv", some 3, some (7/40), some (1/4), some 0, none, none⟩

def zHit : VecHit := ⟨"z", "tz", 1⟩

def aHit : VecHit := ⟨"a", "ta", 1⟩

/-- A vector search returning the two equidistant hits `z` then `a`. -/
def cexSearch : String → ℕ → List VecHit := fun _ _ => [zHit, aHit]

/-- A BM25 side whose best match, document `b`, is not a vector hit. -/
def cexIndex : Bm25Index := ⟨["z", "a", "b"], [0, 0, 7]⟩

/-! ## Helper lemmas -/

theorem dictInsert_mem {α : Type} {m : List (String × α)} {k : String} {v : α}
    {p : String × α} (hp : p ∈ dictInsert m k v) : p = (k, v) ∨ p ∈ m := by
  rw [dictInsert] at hp
  by_cases h : m.any (fun q => q.1 == k) = true
  · rw [if_pos h] at hp
    obtain ⟨q, hq, hpq⟩ := List.mem_map.mp hp
    by_cases hk : q.1 == k
    · rw [if_pos hk] at hpq; exact Or.inl hpq.symm
    · rw [if_neg hk] at hpq; exact Or.inr (hpq ▸ hq)
  · rw [if_neg h] at hp
    rcases List.mem_append.mp hp with h1 | h1
    · exact Or.inr h1
    · exact Or.inl (List.mem_singleton.mp h1)

theorem foldl_dictInsert_mem (l : List VecHit) :
    ∀ (m : List (String × VecHit)) (p : String × VecHit),
      p ∈ l.foldl (fun m r => dictInsert m r.id r) m →
      p ∈ m ∨ ∃ r ∈ l, p = (r.id, r) := by
  induction l with
  | nil => exact fun m p hp => Or.inl hp
  | cons a l ih =>
    intro m p hp
    rcases ih _ p hp with h | ⟨r, hr, hpr⟩
    · rcases dictInsert_mem h with h1 | h2
      · exact Or.inr ⟨a, List.mem_cons_self a l, h1⟩
      · exact Or.inl h2
    · exact Or.inr ⟨r, List.mem_cons_of_mem a hr, hpr⟩

theorem buildVectorScores_mem {vr : List VecHit} {p : String × VecHit}
    (hp : p ∈ buildVectorScores vr) : ∃ r ∈ vr, p = (r.id, r) := by
  rcases foldl_dictInsert_mem vr [] p hp with h | h
  · simp at h
  · exact h

theorem pairwise_of_forall {α : Type} {R : α → α → Prop} (h : ∀ a b, R a b) :
    ∀ l : List α, l.Pairwise R := by
  intro l
  induction l with
  | nil => exact List.Pairwise.nil
  | cons a l ih => exact List.Pairwise.cons (fun b _ => h a b) ih

/-- Every element of `hybridList` is a `hybridEntry` of a vector hit. -/
theorem hybridList_mem {wv wb : ℚ} {bm : List (String × ℚ)} {vr : List VecHit}
    {c : Candidate} (hc : c ∈ hybridList wv wb bm vr) :
    ∃ r ∈ vr, c = hybridEntry wv wb bm r := by
  obtain ⟨p, hp, hcp⟩ := List.mem_map.mp hc
  obtain ⟨r, hr, hpr⟩ := buildVectorScores_mem hp
  exact ⟨r, hr, by rw [← hcp, hpr]⟩

/-- Every combined candidate carries its distance, its looked-up
(normalized) lexical score, and the hybrid score computed from exactly
those two by the line-461 formula. -/
theorem hybridList_scores {wv wb : ℚ} {bm : List (String × ℚ)} {vr : List VecHit}
    {c : Candidate} (hc : c ∈ hybridList wv wb bm vr) :
    ∃ d b0, c.distance = some d ∧ c.bm25_score = some b0
      ∧ c.hybrid_score = some (wv * simOfDistance d + wb * b0) := by
  obtain ⟨r, -, rfl⟩ := hybridList_mem hc
  exact ⟨r.distance, dictGetD bm r.id 0, rfl, rfl, rfl⟩

theorem contains_append_left {sel : List ℕ} {i j : ℕ}
    (h : (sel ++ [i]).contains j = false) : sel.contains j = false := by
  simp_all

theorem embAt_lt_length {embs : List (Option (List ℚ))} {j : ℕ} {e : List ℚ}
    (h : embAt embs j = some e) : j < embs.length := by
  by_contra hc
  rw [embAt, List.get?_eq_none.mpr (le_of_not_lt hc)] at h
  simp [Option.join] at h

theorem embAt_docEmbeddings (embed : String → List ℚ) (results : List Candidate)
    (i : ℕ) (e : List ℚ) :
    embAt (docEmbeddings embed results) i = some e ↔
      ∃ r, results.get? i = some r ∧ r.text ≠ "" ∧ embed r.text = e := by
  rw [embAt, docEmbeddings, List.get?_map]
  cases h : results.get? i with
  | none => simp [Option.join]
  | some r =>
    by_cases ht : r.text = ""
    · simp [Option.join, ht]
    · simp [Option.join, ht]

/-- With `λ = 1` the redundancy term vanishes: the MMR score is the raw
relevance. -/
theorem mmrScore_one (cos : List ℚ → List ℚ → ℚ) (qe : List ℚ)
    (embs : List (Option (List ℚ))) (sel : List ℕ) (e : List ℚ) :
    mmrScore cos qe embs 1 sel e = cos qe e := by
  rw [mmrScore]; ring

theorem mmrStep_good {cos : List ℚ → List ℚ → ℚ} {qe : List ℚ}
    {embs : List (Option (List ℚ))} {lam : ℚ} {sel : List ℕ}
    {b : Option (ℕ × ℚ)} {i : ℕ}
    (hb : ∀ j s, b = some (j, s) → sel.contains j = false ∧
      ∃ e, embAt embs j = some e ∧ s = mmrScore cos qe embs lam sel e) :
    ∀ j s, mmrStep cos qe embs lam sel b i = some (j, s) → sel.contains j = false ∧
      ∃ e, embAt embs j = some e ∧ s = mmrScore cos qe embs lam sel e := by
  intro j s h
  rw [mmrStep] at h
  by_cases hc : sel.contains i = true
  · rw [if_pos hc] at h; exact hb j s h
  · rw [if_neg hc] at h
    cases he : embAt embs i with
    | none => rw [he] at h; exact hb j s h
    | some e =>
      rw [he] at h
      dsimp only at h
      cases b with
      | none =>
        obtain ⟨rfl, rfl⟩ : i = j ∧ mmrScore cos qe embs lam sel e = s := by
          injection h with h1; injection h1 with h2 h3; exact ⟨h2, h3⟩
        exact ⟨Bool.not_eq_true _ ▸ hc, e, he, rfl⟩
      | some p =>
        dsimp only at h
        by_cases hlt : p.2 < mmrScore cos qe embs lam sel e
        · rw [if_pos hlt] at h
          obtain ⟨rfl, rfl⟩ : i = j ∧ mmrScore cos qe embs lam sel e = s := by
            injection h with h1; injection h1 with h2 h3; exact ⟨h2, h3⟩
          exact ⟨Bool.not_eq_true _ ▸ hc, e, he, rfl⟩
        · rw [if_neg hlt] at h; exact hb j s h

theorem mmrStep_mono {cos : List ℚ → List ℚ → ℚ} {qe : List ℚ}
    {embs : List (Option (List ℚ))} {lam : ℚ} {sel : List ℕ}
    {b : Option (ℕ × ℚ)} {i : ℕ} {p : ℕ × ℚ} (hb : b = some p) :
    ∃ q, mmrStep cos qe embs lam sel b i = some q ∧ p.2 ≤ q.2 := by
  subst hb
  rw [mmrStep]
  by_cases hc : sel.contains i = true
  · exact ⟨p, if_pos hc, le_refl _⟩
  · rw [if_neg hc]
    cases he : embAt embs i with
    | none => exact ⟨p, rfl, le_refl _⟩
    | some e =>
      by_cases hlt : p.2 < mmrScore cos qe embs lam sel e
      · exact ⟨(i, mmrScore cos qe embs lam sel e), if_pos hlt, le_of_lt hlt⟩
      · exact ⟨p, if_neg hlt, le_refl _⟩

theorem mmrStep_dom {cos : List ℚ → List ℚ → ℚ} {qe : List ℚ}
    {embs : List (Option (List ℚ))} {lam : ℚ} {sel : List ℕ}
    {b : Option (ℕ × ℚ)} {i : ℕ} {e : List ℚ}
    (hc : sel.contains i = false) (he : embAt embs i = some e) :
    ∃ q, mmrStep cos qe embs lam sel b i = some q ∧
      mmrScore cos qe embs lam sel e ≤ q.2 := by
  rw [mmrStep, if_neg (by rw [hc]; exact Bool.false_ne_true), he]
  cases b with
  | none => exact ⟨(i, mmrScore cos qe embs lam sel e), rfl, le_refl _⟩
  | some p =>
    by_cases hlt : p.2 < mmrScore cos qe embs lam sel e
    · exact ⟨(i, mmrScore cos qe embs lam sel e), if_pos hlt, le_refl _⟩
    · exact ⟨p, if_neg hlt, le_of_not_lt hlt⟩

theorem foldl_mmrStep_good {cos : List ℚ → List ℚ → ℚ} {qe : List ℚ}
    {embs : List (Option (List ℚ))} {lam : ℚ} {sel : List ℕ} (l : List ℕ) :
    ∀ b, (∀ j s, b = some (j, s) → sel.contains j = false ∧
        ∃ e, embAt embs j = some e ∧ s = mmrScore cos qe embs lam sel e) →
      ∀ j s, l.foldl (mmrStep cos qe embs lam sel) b = some (j, s) →
        sel.contains j = false ∧
        ∃ e, embAt embs j = some e ∧ s = mmrScore cos qe embs lam sel e := by
  induction l with
  | nil => exact fun b hb => hb
  | cons a l ih => exact fun b hb => ih _ (mmrStep_good hb)

theorem foldl_mmrStep_mono {cos : List ℚ → List ℚ → ℚ} {qe : List ℚ}
    {embs : List (Option (List ℚ))} {lam : ℚ} {sel : List ℕ} (l : List ℕ) :
    ∀ b p, b = some p →
      ∃ q, l.foldl (mmrStep cos qe embs lam sel) b = some q ∧ p.2 ≤ q.2 := by
  induction l with
  | nil => exact fun b p hb => ⟨p, by rw [List.foldl_nil, hb], le_refl _⟩
  | cons a l ih =>
    intro b p hb
    obtain ⟨q1, hq1, hle1⟩ := mmrStep_mono (i := a) hb
    obtain ⟨q2, hq2, hle2⟩ := ih _ q1 hq1
    exact ⟨q2, by rw [List.foldl_cons]; exact hq2, le_trans hle1 hle2⟩

theorem foldl_mmrStep_dom {cos : List ℚ → List ℚ → ℚ} {qe : List ℚ}
    {embs : List (Option (List ℚ))} {lam : ℚ} {sel : List ℕ} (l : List ℕ) :
    ∀ b j e, j ∈ l → sel.contains j = false → embAt embs j = some e →
      ∃ q, l.foldl (mmrStep cos qe embs lam sel) b = some q ∧
        mmrScore cos qe embs lam sel e ≤ q.2 := by
  induction l with
  | nil => intro b j e hj; exact absurd hj (List.not_mem_nil j)
  | cons a l ih =>
    intro b j e hj hc he
    rcases List.mem_cons.mp hj with rfl | hj
    · obtain ⟨q1, hq1, hle1⟩ := mmrStep_dom (b := b) hc he
      obtain ⟨q2, hq2, hle2⟩ := foldl_mmrStep_mono l _ q1 hq1
      exact ⟨q2, by rw [List.foldl_cons]; exact hq2, le_trans hle1 hle2⟩
    · exact ih _ j e hj hc he

theorem pickBest_good {cos : List ℚ → List ℚ → ℚ} {qe : List ℚ}
    {embs : List (Option (List ℚ))} {lam : ℚ} {sel : List ℕ} :
    ∀ j s, pickBest cos qe embs lam sel = some (j, s) →
      sel.contains j = false ∧
      ∃ e, embAt embs j = some e ∧ s = mmrScore cos qe embs lam sel e :=
  foldl_mmrStep_good (List.range embs.length) none (fun j s h => by simp at h)

theorem pickBest_dom {cos : List ℚ → List ℚ → ℚ} {qe : List ℚ}
    {embs : List (Option (List ℚ))} {lam : ℚ} {sel : List ℕ} {j : ℕ} {e : List ℚ}
    (hc : sel.contains j = false) (he : embAt embs j = some e) :
    ∃ q, pickBest cos qe embs lam sel = some q ∧
      mmrScore cos qe embs lam sel e ≤ q.2 :=
  foldl_mmrStep_dom (List.range embs.length) none j e
    (List.mem_range.mpr (embAt_lt_length he)) hc he

theorem mmrLoop_sorted (cos : List ℚ → List ℚ → ℚ) (qe : List ℚ)
    (embs : List (Option (List ℚ))) :
    ∀ (fuel : ℕ) (sel : List ℕ) (acc : List (ℕ × ℚ)),
      (∀ p ∈ acc, ∀ j e, sel.contains j = false → embAt embs j = some e →
        cos qe e ≤ p.2) →
      acc.Pairwise (fun p q => q.2 ≤ p.2) →
      (mmrLoop cos qe embs 1 fuel sel acc).Pairwise (fun p q => q.2 ≤ p.2) := by
  intro fuel
  induction fuel with
  | zero => exact fun sel acc _ h2 => h2
  | succ n ih =>
    intro sel acc h1 h2
    rw [mmrLoop]
    cases hp : pickBest cos qe embs 1 sel with
    | none => exact ih sel acc h1 h2
    | some p =>
      obtain ⟨hpc, e0, he0, hs0⟩ := pickBest_good p.1 p.2 (by rw [hp])
      rw [mmrScore_one] at hs0
      apply ih (sel ++ [p.1]) (acc ++ [p])
      · intro q hq j e hcj hej
        have hcj' : sel.contains j = false := contains_append_left hcj
        rcases List.mem_append.mp hq with hq | hq
        · exact h1 q hq j e hcj' hej
        · rw [List.mem_singleton.mp hq]
          obtain ⟨q', hq'', hle⟩ := @pickBest_dom cos qe embs 1 sel j e hcj' hej
          rw [hp] at hq''
          injection hq'' with hq''
          rw [mmrScore_one] at hle
          rw [hq'']
          exact hle
      · rw [List.pairwise_append]
        refine ⟨h2, List.pairwise_singleton _ _, ?_⟩
        intro a ha b hb
        rw [List.mem_singleton.mp hb, hs0]
        exact h1 a ha p.1 e0 hpc he0

theorem mmrLoop_mem (cos : List ℚ → List ℚ → ℚ) (qe : List ℚ)
    (embs : List (Option (List ℚ))) (lam : ℚ) :
    ∀ (fuel : ℕ) (sel : List ℕ) (acc : List (ℕ × ℚ)),
      (∀ p ∈ acc, ∃ e, embAt embs p.1 = some e ∧
        ∃ sel2, p.2 = mmrScore cos qe embs lam sel2 e) →
      ∀ p ∈ mmrLoop cos qe embs lam fuel sel acc,
        ∃ e, embAt embs p.1 = some e ∧
        ∃ sel2, p.2 = mmrScore cos qe embs lam sel2 e := by
  intro fuel
  induction fuel with
  | zero => exact fun sel acc h => h
  | succ n ih =>
    intro sel acc h p
    rw [mmrLoop]
    cases hp : pickBest cos qe embs lam sel with
    | none => exact ih sel acc h p
    | some q =>
      apply ih (sel ++ [q.1]) (acc ++ [q])
      intro r hr
      rcases List.mem_append.mp hr with hr | hr
      · exact h r hr
      · rw [List.mem_singleton.mp hr]
        obtain ⟨-, e, he, hs⟩ := pickBest_good q.1 q.2 (by rw [hp])
        exact ⟨e, he, sel, hs⟩

theorem mmrLoop_length (cos : List ℚ → List ℚ → ℚ) (qe : List ℚ)
    (embs : List (Option (List ℚ))) (lam : ℚ) :
    ∀ (fuel : ℕ) (sel : List ℕ) (acc : List (ℕ × ℚ)),
      (mmrLoop cos qe embs lam fuel sel acc).length ≤ acc.length + fuel := by
  intro fuel
  induction fuel with
  | zero => exact fun sel acc => le_of_eq rfl |>.trans (Nat.le_add_right _ 0)
  | succ n ih =>
    intro sel acc
    rw [mmrLoop]
    cases pickBest cos qe embs lam sel with
    | none => exact (ih sel acc).trans (by omega)
    | some p =>
      refine (ih (sel ++ [p.1]) (acc ++ [p])).trans ?_
      rw [List.length_append, List.length_singleton]
      omega

/-! ## Claim theorems -/

/-- C1 counterexample: document `b` is the BM25 side's best match but is
not among the vector hits, so it is absent from the combiner's output —
the output is not the union of the two sides.  Moreover the two
equal-scoring vector hits keep their vector-result order `z` before `a`
(stable sort), not document-id-ascending order. -/
theorem hybrid_union_cex :
    "b" ∈ cexIndex.ids
    ∧ (_hybrid_search cexSearch true (some cexIndex) "q" 3 (7/10) (3/10)).map
        Candidate.id = ["z", "a"] := by
  refine ⟨by decide, ?_⟩
  have hnorm : normalizeBm25 [0, 0, 7] = [0, 0, 1] := by
    norm_num [normalizeBm25, max_def]
  have hmap : bm25ScoreMap ["z", "a", "b"] [0, 0, 1]
      = [("z", 0), ("a", 0), ("b", 1)] := by
    simp [bm25ScoreMap, dictInsert]
  have hvs : buildVectorScores [zHit, aHit] = [("z", zHit), ("a", aHit)] := by
    simp [buildVectorScores, dictInsert, zHit, aHit]
  have hg1 : dictGetD [("z", 0), ("a", 0), ("b", 1)] "z" 0 = 0 := by decide
  have hg2 : dictGetD [("z", 0), ("a", 0), ("b", 1)] "a" 0 = 0 := by decide
  have hz : hybridEntry (7/10) (3/10) [("z", 0), ("a", 0), ("b", 1)] zHit
      = ⟨"z", "tz", some 1, some (7/20), some (1/2), some 0, none, none⟩ := by
    norm_num [hybridEntry, simOfDistance, VecHit.toCandidate, zHit, hg1]
  have ha : hybridEntry (7/10) (3/10) [("z", 0), ("a", 0), ("b", 1)] aHit
      = ⟨"a", "ta", some 1, some (7/20), some (1/2), some 0, none, none⟩ := by
    norm_num [hybridEntry, simOfDistance, VecHit.toCandidate, aHit, hg2]
  have hlist : hybridList (7/10) (3/10) [("z", 0), ("a", 0), ("b", 1)] [zHit, aHit]
      = [⟨"z", "tz", some 1, some (7/20), some (1/2), some 0, none, none⟩,
         ⟨"a", "ta", some 1, some (7/20), some (1/2), some 0, none, none⟩] := by
    rw [hybridList, hvs]
    simp only [List.map_cons, List.map_nil, hz, ha]
  have hsort : sortByHybrid
      [⟨"z", "tz", some 1, some (7/20), some (1/2), some 0, none, none⟩,
       ⟨"a", "ta", some 1, some (7/20), some (1/2), some 0, none, none⟩]
      = [⟨"z", "tz", some 1, some (7/20), some (1/2), some 0, none, none⟩,
         ⟨"a", "ta", some 1, some (7/20), some (1/2), some 0, none, none⟩] := by
    simp [sortByHybrid, List.insertionSort, List.orderedInsert, hybridGe]
  show (_hybrid_search cexSearch true (some cexIndex) "q" 3 (7/10) (3/10)).map
      Candidate.id = ["z", "a"]
  rw [_hybrid_search]
  simp only [cexSearch, cexIndex, Bool.not_true, Bool.false_eq_true, if_false]
  rw [hnorm, hmap, hlist, hsort]
  decide

/-- C1 amended: the combiner's output contains only document ids from
the vector-search side (a document appearing only on the lexical side is
never added; a vector document missing on the lexical side contributes 0
for the lexical term), and the output is sorted descending by hybrid
score — ties keep the vector-result order (stable sort), not
document-id-ascending order. -/
theorem hybrid_vector_side_ranking
    (search : String → ℕ → List VecHit) (bm25_available : Bool)
    (bm25_index : Option Bm25Index) (query : String) (n : ℕ) (wv wb : ℚ) :
    (∀ r ∈ _hybrid_search search bm25_available bm25_index query n wv wb,
        r.id ∈ (search query (n * 2)).map VecHit.id)
    ∧ (_hybrid_search search bm25_available bm25_index query n wv wb).Pairwise
        hybridGe := by
  have hfall : ∀ m : List VecHit,
      ((m.map VecHit.toCandidate).take n).Pairwise hybridGe := by
    intro m
    refine List.Pairwise.sublist (List.take_sublist n _) ?_
    refine List.pairwise_map.mpr (pairwise_of_forall ?_ m)
    intro a b
    show ((VecHit.toCandidate b).hybrid_score.getD 0)
      ≤ ((VecHit.toCandidate a).hybrid_score.getD 0)
    simp [VecHit.toCandidate]
  have hfallmem : ∀ (m : List VecHit) (r : Candidate),
      r ∈ (m.map VecHit.toCandidate).take n → r.id ∈ m.map VecHit.id := by
    intro m r hr
    obtain ⟨v, hv, hvr⟩ := List.mem_map.mp (List.take_subset n _ hr)
    exact List.mem_map.mpr ⟨v, hv, by rw [← hvr]; rfl⟩
  rw [_hybrid_search.eq_def]
  cases bm25_available with
  | false => exact ⟨hfallmem _, hfall _⟩
  | true =>
    cases bm25_index with
    | none => exact ⟨hfallmem _, hfall _⟩
    | some idx =>
      constructor
      · intro r hr
        have hr2 : r ∈ sortByHybrid (hybridList wv wb
            (bm25ScoreMap idx.ids (normalizeBm25 idx.scores)) (search query (n * 2))) :=
          List.take_subset n _ hr
        have hr3 : r ∈ hybridList wv wb
            (bm25ScoreMap idx.ids (normalizeBm25 idx.scores)) (search query (n * 2)) :=
          (List.perm_insertionSort hybridGe _).mem_iff.mp hr2
        obtain ⟨v, hv, hvr⟩ := hybridList_mem hr3
        exact List.mem_map.mpr ⟨v, hv, by rw [hvr]; rfl⟩
      · exact List.Pairwise.sublist (List.take_sublist n _)
          (List.sorted_insertionSort hybridGe _)

/-- Witness for the amended C1, on the BM25-unavailable branch (pure
vector ranking). -/
theorem hybrid_vector_side_ranking_witness :
    (VecHit.toCandidate zHit).id ∈ (cexSearch "q" (1 * 2)).map VecHit.id
    ∧ (_hybrid_search cexSearch false none "q" 1 (7/10) (3/10)).Pairwise
        hybridGe := by
  have h := hybrid_vector_side_ranking cexSearch false none "q" 1 (7/10) (3/10)
  exact ⟨h.1 (VecHit.toCandidate zHit) (by decide), h.2⟩

/-- C2: the Relevance Filter keeps exactly the input candidates whose
vector distance is at most the threshold: every output candidate carries
a distance `≤ T`; every input candidate with distance `> T` is absent
from the output; and on the scenario distances `[1, 5, 9, 13, 20]` with
`T = 10` exactly the three candidates at distances 1, 5, 9 survive. -/
theorem threshold_exactness (results : List Candidate) (T : ℚ) :
    (∀ r ∈ _apply_threshold results T, ∃ d, r.distance = some d ∧ d ≤ T)
    ∧ (∀ r ∈ results, ∀ d, r.distance = some d → T < d →
        r ∉ _apply_threshold results T)
    ∧ (_apply_threshold thresholdScenario 10).map Candidate.distance
        = [some 1, some 5, some 9] := by
  refine ⟨?_, ?_, by decide⟩
  · intro r hr
    rw [_apply_threshold, List.mem_filter] at hr
    obtain ⟨-, h⟩ := hr
    cases hd : r.distance with
    | none => rw [hd] at h; simp at h
    | some d =>
      rw [hd] at h
      exact ⟨d, rfl, of_decide_eq_true h⟩
  · intro r _ d hd hTd hmem
    rw [_apply_threshold, List.mem_filter, hd] at hmem
    exact absurd (of_decide_eq_true hmem.2) (not_le.mpr hTd)

/-- Witness for C2: the candidate at distance 13 is removed by the
filter at threshold 10. -/
theorem threshold_exactness_witness :
    mkCand "d4" "t" (some 13) ∉ _apply_threshold thresholdScenario 10 :=
  (threshold_exactness thresholdScenario 10).2.1 (mkCand "d4" "t" (some 13))
    (by decide) 13 rfl (by decide)

/-- C3 counterexample: a candidate lacking a vector distance does NOT
pass through the Relevance Filter.  `r.get('distance', float('inf'))`
defaults the missing key to `+inf`, which exceeds the threshold, so the
candidate is removed (here: singleton input, threshold 10, empty
output). -/
theorem threshold_missing_distance_cex :
    noDistCand ∈ [noDistCand]
    ∧ noDistCand ∉ _apply_threshold [noDistCand] 10 :=
  ⟨by decide, by decide⟩

/-- C3 amended: a candidate lacking a vector distance is treated as
infinitely distant and removed by the Relevance Filter, for every
threshold. -/
theorem threshold_missing_distance_removed (results : List Candidate) (T : ℚ)
    (r : Candidate) (_hr : r ∈ results) (hd : r.distance = none) :
    r ∉ _apply_threshold results T := by
  intro hmem
  rw [_apply_threshold, List.mem_filter, hd] at hmem
  simp at hmem

/-- Witness for the amended C3. -/
theorem threshold_missing_distance_removed_witness :
    noDistCand ∈ [noDistCand] ∧ noDistCand.distance = none
    ∧ noDistCand ∉ _apply_threshold [noDistCand] 5 :=
  ⟨by decide, rfl,
    threshold_missing_distance_removed [noDistCand] 5 noDistCand (by decide) rfl⟩

/-- C4: evaluation at the failing input.  The cross-encoder is handed
exactly one pair, `(query, "T")`, for the single candidate with
non-empty text; but the returned score is written back by UNFILTERED
index (lines 509-511), so the empty-text candidate at index 0 receives
the non-empty candidate's score 5 and sorts FIRST, while the non-empty
candidate stays unscored (`-inf` key) and sorts LAST — the opposite of
the claimed minimum-score-and-last treatment of empty-text candidates. -/
theorem rerank_misalignment_eval :
    cePairs "q" [emptyTextCand, fullTextCand] = [("q", "T")]
    ∧ _rerank_with_cross_encoder constFivePredict "q" [emptyTextCand, fullTextCand] 2
      = [{ emptyTextCand with cross_encoder_score := some 5 }, fullTextCand] := by
  constructor <;> decide

/-- C5 counterexample: when the scorer raises, the stage does NOT pass
all candidates through unchanged — it truncates to `top_k`
(`return results[:top_k]`, line 524): two candidates in, one out. -/
theorem rerank_error_truncation_cex :
    _rerank_with_cross_encoder failingPredict "q" [cexCand1, cexCand2] 1 = [cexCand1]
    ∧ _rerank_with_cross_encoder failingPredict "q" [cexCand1, cexCand2] 1
      ≠ [cexCand1, cexCand2] := by
  constructor <;> decide

/-- C5 amended: if the pairwise scorer raises, reranking is skipped and
the FIRST `top_k` candidates are returned in their pre-rerank order
(relative order unchanged, but truncated to `top_k`); no error is
surfaced (the stage is a total function into a plain candidate list). -/
theorem rerank_error_passthrough_truncated
    (predict : List (String × String) → Except Unit (List ℚ))
    (query : String) (results : List Candidate) (top_k : ℕ)
    (hne : results.isEmpty = false)
    (hp : (cePairs query results).isEmpty = false)
    (herr : predict (cePairs query results) = .error ()) :
    _rerank_with_cross_encoder predict query results top_k = results.take top_k := by
  simp only [_rerank_with_cross_encoder, hne, hp, herr]
  simp

/-- Witness for the amended C5. -/
theorem rerank_error_passthrough_truncated_witness :
    ([cexCand1, cexCand2] : List Candidate).isEmpty = false
    ∧ (cePairs "q" [cexCand1, cexCand2]).isEmpty = false
    ∧ failingPredict (cePairs "q" [cexCand1, cexCand2]) = .error ()
    ∧ _rerank_with_cross_encoder failingPredict "q" [cexCand1, cexCand2] 1
      = [cexCand1, cexCand2].take 1 :=
  ⟨rfl, rfl, rfl,
    rerank_error_passthrough_truncated failingPredict "q" [cexCand1, cexCand2] 1
      rfl rfl rfl⟩

/-- C9: no sufficiently relevant candidate means an empty list, never an
error.  `search_similar_emails` returns `[]` for a missing collection
and for an empty query result (empty corpus), and also turns a raised
query exception into `[]`; `advanced_search` returns `[]` when the
initial retrieval is empty and, when thresholding is on and the filter
removes every candidate, returns `[]` rather than falling back to the
unfiltered candidates.  All functions are total: no error is ever
surfaced. -/
theorem empty_result_policy
    (query_rows : ℕ → Except Unit (List VecHit)) (n : ℕ)
    (search : String → ℕ → List VecHit) (bm25_available : Bool)
    (bm25_index : Option Bm25Index)
    (predict : List (String × String) → Except Unit (List ℚ))
    (cos : List ℚ → List ℚ → ℚ) (embed : String → List ℚ)
    (query : String) (cfg : AdvancedRAGConfig) :
    search_similar_emails none query_rows n = []
    ∧ (query_rows n = .ok [] → search_similar_emails (some ()) query_rows n = [])
    ∧ (query_rows n = .error () → search_similar_emails (some ()) query_rows n = [])
    ∧ (initialRetrieve search bm25_available bm25_index query cfg = [] →
        advanced_search search bm25_available bm25_index predict cos embed query cfg = [])
    ∧ (cfg.use_threshold = true →
        _apply_threshold (initialRetrieve search bm25_available bm25_index query cfg)
          cfg.distance_threshold = [] →
        advanced_search search bm25_available bm25_index predict cos embed query cfg
          = []) := by
  refine ⟨rfl, ?_, ?_, ?_, ?_⟩
  · intro h; rw [search_similar_emails, h]
  · intro h; rw [search_similar_emails, h]
  · intro h
    rw [advanced_search, h]
    rfl
  · intro ht hf
    rw [advanced_search]
    cases hini : (initialRetrieve search bm25_available bm25_index query cfg).isEmpty
    · simp only [Bool.false_eq_true, if_false, ht, if_true, hf]
      rfl
    · rfl

/-- Witness for C9: a pipeline whose vector search finds nothing (empty
corpus) yields the empty result through every clause. -/
theorem empty_result_policy_witness :
    search_similar_emails none (fun _ => .ok []) 5 = []
    ∧ search_similar_emails (some ()) (fun _ => .ok []) 5 = []
    ∧ advanced_search (fun _ _ => []) true none constFivePredict
        (fun _ _ => 0) (fun _ => []) "q" {} = []
    ∧ advanced_search (fun _ _ => [⟨"far", "t", 100⟩]) false none constFivePredict
        (fun _ _ => 0) (fun _ => []) "q" { use_hybrid := false } = [] := by
  have h := empty_result_policy (fun _ => .ok []) 5 (fun _ _ => []) true none
    constFivePredict (fun _ _ => 0) (fun _ => []) "q" {}
  have h2 := empty_result_policy (fun _ => .ok []) 5 (fun _ _ => [⟨"far", "t", 100⟩])
    false none constFivePredict (fun _ _ => 0) (fun _ => []) "q" { use_hybrid := false }
  exact ⟨h.1, h.2.1 rfl, h.2.2.2.1 rfl, h2.2.2.2.2 rfl (by decide)⟩

/-- C6 counterexample: when the incoming pool is not larger than
`top_k`, `_apply_mmr` returns it in its ORIGINAL order (line 548's early
return), even when that order is not relevance-sorted: here the second
candidate has strictly higher cosine similarity to the query but stays
second.  (`dotQ` coincides with cosine similarity on the unit vectors
used.) -/
theorem mmr_lambda_one_small_pool_cex :
    _apply_mmr dotQ cexEmbed [1, 0] [mmrCand1, mmrCand2] 1 3 = [mmrCand1, mmrCand2]
    ∧ dotQ [1, 0] (cexEmbed mmrCand1.text) < dotQ [1, 0] (cexEmbed mmrCand2.text) := by
  constructor
  · rw [_apply_mmr, if_pos (by norm_num), List.take_of_length_le (by norm_num)]
  · have h1 : cexEmbed mmrCand1.text = [0, 1] := by
      simp [cexEmbed, mmrCand1, mkCand]
    have h2 : cexEmbed mmrCand2.text = [1, 0] := by
      simp [cexEmbed, mmrCand2, mkCand]
    rw [h1, h2]
    norm_num [dotQ]

/-- C6 amended: with `λ = 1.0`, when the pool is LARGER than `top_k`
(the MMR loop path), the Diversity Selector's output is in decreasing
order of cosine similarity between the query embedding and each
candidate's embedding; a pool of size ≤ `top_k` is passed through in its
original incoming order instead (no re-sorting). -/
theorem mmr_lambda_one_relevance_order
    (cos : List ℚ → List ℚ → ℚ) (embed : String → List ℚ)
    (qe : List ℚ) (results : List Candidate) (top_k : ℕ) :
    (results.length ≤ top_k → _apply_mmr cos embed qe results 1 top_k = results)
    ∧ (top_k < results.length →
        (_apply_mmr cos embed qe results 1 top_k).Pairwise
          (fun x y => cos qe (embed y.text) ≤ cos qe (embed x.text))) := by
  constructor
  · intro h
    rw [_apply_mmr, if_pos h, List.take_of_length_le h]
  · intro h
    rw [_apply_mmr, if_neg (not_le.mpr h)]
    have hsorted := mmrLoop_sorted cos qe (docEmbeddings embed results)
      (min top_k results.length) [] [] (by intro p hp; simp at hp)
      List.Pairwise.nil
    have hmem := mmrLoop_mem cos qe (docEmbeddings embed results) 1
      (min top_k results.length) [] [] (by intro p hp; simp at hp)
    rw [List.pairwise_filterMap]
    refine hsorted.imp_of_mem ?_
    intro p q hp hq hle x hx y hy
    obtain ⟨ep, hep, sp, hsp⟩ := hmem p hp
    obtain ⟨eq', heq, sq, hsq⟩ := hmem q hq
    rw [mmrScore_one] at hsp hsq
    obtain ⟨rp, hrp, -, herp⟩ := (embAt_docEmbeddings embed results p.1 ep).mp hep
    obtain ⟨rq, hrq, -, herq⟩ := (embAt_docEmbeddings embed results q.1 eq').mp heq
    rw [Option.mem_def, hrp] at hx
    rw [Option.mem_def, hrq] at hy
    dsimp only at hx hy
    injection hx with hx
    injection hy with hy
    rw [← hx, ← hy]
    show cos qe (embed rq.text) ≤ cos qe (embed rp.text)
    rw [herp, herq, ← hsp, ← hsq]
    exact hle

/-- Witness for the amended C6: a two-candidate pool with `top_k = 1`
goes through the MMR loop and comes out relevance-sorted. -/
theorem mmr_lambda_one_relevance_order_witness :
    1 < ([mmrCand1, mmrCand2] : List Candidate).length
    ∧ (_apply_mmr dotQ cexEmbed [1, 0] [mmrCand1, mmrCand2] 1 1).Pairwise
        (fun x y => dotQ [1, 0] (cexEmbed y.text) ≤ dotQ [1, 0] (cexEmbed x.text)) :=
  ⟨by norm_num,
    (mmr_lambda_one_relevance_order dotQ cexEmbed [1, 0] [mmrCand1, mmrCand2] 1).2
      (by norm_num)⟩

/-- C7 counterexample: three candidates, two of which (`noEmbA`,
`noEmbC`) have empty text and hence no embedding, with `top_k = 2`.
The embeddable pool is exhausted after one selection (fewer than
`top_k`), yet the embedding-less candidates are NOT appended after the
MMR selection: the output is just the single embeddable candidate. -/
theorem mmr_no_embedding_dropped_cex :
    _apply_mmr dotQ oneEmbed [1] [noEmbA, embB, noEmbC] (7/10) 2
      = [{ embB with mmr_score := some (7/10) }]
    ∧ noEmbA ∉ _apply_mmr dotQ oneEmbed [1] [noEmbA, embB, noEmbC] (7/10) 2
    ∧ noEmbC ∉ _apply_mmr dotQ oneEmbed [1] [noEmbA, embB, noEmbC] (7/10) 2 := by
  have hemb : docEmbeddings oneEmbed [noEmbA, embB, noEmbC]
      = [none, some [1], none] := by
    simp [docEmbeddings, oneEmbed, noEmbA, embB, noEmbC, mkCand]
  have hscore : mmrScore dotQ [1] [none, some [1], none] (7/10) [] [1] = 7/10 := by
    rw [mmrScore, redundancy]
    norm_num [dotQ]
  have hstep1 : mmrStep dotQ [1] [none, some [1], none] (7/10) [] none 1
      = some (1, 7/10) := by
    rw [mmrStep, if_neg (by decide),
      show embAt [none, some [1], none] 1 = some [1] from rfl]
    dsimp only
    rw [hscore]
  have hpick1 : pickBest dotQ [1] [none, some [1], none] (7/10) [] = some (1, 7/10) := by
    rw [pickBest,
      show List.range ([none, some [1], none] : List (Option (List ℚ))).length
        = [0, 1, 2] from rfl]
    simp only [List.foldl_cons, List.foldl_nil]
    rw [show mmrStep dotQ [1] [none, some [1], none] (7/10) [] none 0 = none from rfl,
      hstep1,
      show mmrStep dotQ [1] [none, some [1], none] (7/10) [] (some (1, 7/10)) 2
        = some (1, 7/10) from rfl]
  have hpick2 : pickBest dotQ [1] [none, some [1], none] (7/10) [1] = none := by
    decide
  have hloop : mmrLoop dotQ [1] [none, some [1], none] (7/10) 2 [] []
      = [(1, 7/10)] := by
    rw [show (2:ℕ) = 1 + 1 from rfl, mmrLoop, hpick1]
    show mmrLoop dotQ [1] [none, some [1], none] (7/10) 1 [1] [(1, 7/10)]
      = [(1, 7/10)]
    rw [show (1:ℕ) = 0 + 1 from rfl, mmrLoop, hpick2]
    show mmrLoop dotQ [1] [none, some [1], none] (7/10) 0 [1] [(1, 7/10)]
      = [(1, 7/10)]
    rw [mmrLoop]
  have hmain : _apply_mmr dotQ oneEmbed [1] [noEmbA, embB, noEmbC] (7/10) 2
      = [{ embB with mmr_score := some (7/10) }] := by
    rw [_apply_mmr, if_neg (by norm_num), hemb,
      show min 2 ([noEmbA, embB, noEmbC] : List Candidate).length = 2 from rfl]
    dsimp only
    rw [hloop]
    rfl
  refine ⟨hmain, ?_, ?_⟩
  · rw [hmain]
    intro hmem
    have h' := List.mem_singleton.mp hmem
    exact absurd (congrArg Candidate.id h') (by decide)
  · rw [hmain]
    intro hmem
    have h' := List.mem_singleton.mp hmem
    exact absurd (congrArg Candidate.id h') (by decide)

/-- C7 amended: in the MMR loop path (pool larger than `top_k`),
candidates without an embedding (empty text) are excluded from MMR
scoring AND dropped from the output entirely — they are never appended;
when the embeddable pool is exhausted early the output simply has fewer
than `top_k` entries (the length never exceeds `top_k`). -/
theorem mmr_no_embedding_excluded
    (cos : List ℚ → List ℚ → ℚ) (embed : String → List ℚ)
    (qe : List ℚ) (results : List Candidate) (lam : ℚ) (top_k : ℕ)
    (h : top_k < results.length) :
    (∀ r ∈ _apply_mmr cos embed qe results lam top_k, r.text ≠ "")
    ∧ (_apply_mmr cos embed qe results lam top_k).length ≤ top_k := by
  rw [_apply_mmr, if_neg (not_le.mpr h)]
  constructor
  · intro r hr
    obtain ⟨p, hp, hfp⟩ := List.mem_filterMap.mp hr
    obtain ⟨e, he, -⟩ := mmrLoop_mem cos qe (docEmbeddings embed results) lam
      (min top_k results.length) [] [] (by intro p hp; simp at hp) p hp
    obtain ⟨r0, hr0, ht0, -⟩ := (embAt_docEmbeddings embed results p.1 e).mp he
    rw [hr0] at hfp
    dsimp only at hfp
    injection hfp with hfp
    rw [← hfp]
    exact ht0
  · refine (List.length_filterMap_le _ _).trans ?_
    refine (mmrLoop_length cos qe (docEmbeddings embed results) lam
      (min top_k results.length) [] []).trans ?_
    rw [List.length_nil, Nat.zero_add]
    exact min_le_left _ _

/-- Witness for the amended C7. -/
theorem mmr_no_embedding_excluded_witness :
    2 < ([noEmbA, embB, noEmbC] : List Candidate).length
    ∧ (∀ r ∈ _apply_mmr dotQ oneEmbed [1] [noEmbA, embB, noEmbC] (7/10) 2,
        r.text ≠ "")
    ∧ (_apply_mmr dotQ oneEmbed [1] [noEmbA, embB, noEmbC] (7/10) 2).length ≤ 2 := by
  have h := mmr_no_embedding_excluded dotQ oneEmbed [1] [noEmbA, embB, noEmbC]
    (7/10) 2 (by norm_num)
  exact ⟨by norm_num, h.1, h.2⟩

/-- C8: the distance-to-similarity transform `s_v = 1/(1+d)` is in
`(0, 1]` for `d ≥ 0` and strictly decreasing, so with a positive vector
weight and equal lexical scores a smaller vector distance gives a
strictly larger hybrid score; consequently, in the combiner's ranked
output a candidate `ca` with distance `da < db` and the same lexical
score as `cb` always precedes `cb` (the order `cb` before `ca` never
occurs as a sublist of the output). -/
theorem hybrid_monotonicity :
    (∀ d : ℚ, 0 ≤ d → 0 < simOfDistance d ∧ simOfDistance d ≤ 1)
    ∧ (∀ da db : ℚ, 0 ≤ da → da < db → simOfDistance db < simOfDistance da)
    ∧ (∀ (search : String → ℕ → List VecHit) (idx : Bm25Index) (query : String)
        (n : ℕ) (wv wb : ℚ) (ca cb : Candidate) (da db : ℚ),
        0 < wv → 0 ≤ da → da < db →
        ca ∈ _hybrid_search search true (some idx) query n wv wb →
        cb ∈ _hybrid_search search true (some idx) query n wv wb →
        ca.distance = some da → cb.distance = some db →
        ca.bm25_score = cb.bm25_score →
        ¬ [cb, ca].Sublist (_hybrid_search search true (some idx) query n wv wb)) := by
  have hsim : ∀ da db : ℚ, 0 ≤ da → da < db →
      simOfDistance db < simOfDistance da := by
    intro da db h0 hlt
    rw [simOfDistance, simOfDistance]
    exact one_div_lt_one_div_of_lt (by linarith) (by linarith)
  refine ⟨?_, hsim, ?_⟩
  · intro d hd
    rw [simOfDistance]
    constructor
    · exact one_div_pos.mpr (by linarith)
    · rw [div_le_one (by linarith)]
      linarith
  · intro search idx query n wv wb ca cb da db hwv hda hdadb hca hcb hda' hdb' hbm hsub
    have hout : _hybrid_search search true (some idx) query n wv wb
        = (sortByHybrid (hybridList wv wb
            (bm25ScoreMap idx.ids (normalizeBm25 idx.scores))
            (search query (n * 2)))).take n := rfl
    rw [hout] at hca hcb hsub
    have hcaL : ca ∈ hybridList wv wb (bm25ScoreMap idx.ids (normalizeBm25 idx.scores))
        (search query (n * 2)) :=
      (List.perm_insertionSort hybridGe _).mem_iff.mp (List.take_subset n _ hca)
    have hcbL : cb ∈ hybridList wv wb (bm25ScoreMap idx.ids (normalizeBm25 idx.scores))
        (search query (n * 2)) :=
      (List.perm_insertionSort hybridGe _).mem_iff.mp (List.take_subset n _ hcb)
    obtain ⟨d1, b1, hd1, hb1, hh1⟩ := hybridList_scores hcaL
    obtain ⟨d2, b2, hd2, hb2, hh2⟩ := hybridList_scores hcbL
    have hd1' : d1 = da := by
      rw [hda'] at hd1; exact (Option.some.inj hd1).symm
    have hd2' : d2 = db := by
      rw [hdb'] at hd2; exact (Option.some.inj hd2).symm
    have hbb : b1 = b2 := by
      rw [hbm, hb2] at hb1
      exact (Option.some.inj hb1).symm
    rw [hd1', hbb] at hh1
    rw [hd2'] at hh2
    have hscore : wv * simOfDistance db + wb * b2 < wv * simOfDistance da + wb * b2 :=
      add_lt_add_right (mul_lt_mul_of_pos_left (hsim da db hda hdadb) hwv) _
    have hS := List.sorted_insertionSort hybridGe (hybridList wv wb
      (bm25ScoreMap idx.ids (normalizeBm25 idx.scores)) (search query (n * 2)))
    have hsub' := hsub.trans (List.take_sublist n _)
    have hpw := List.Pairwise.sublist hsub' hS
    have hge : hybridGe cb ca :=
      (List.pairwise_cons.mp hpw).1 ca (List.mem_singleton.mpr rfl)
    have hge' : (ca.hybrid_score.getD 0) ≤ (cb.hybrid_score.getD 0) := hge
    rw [hh1, hh2, Option.getD_some, Option.getD_some] at hge'
    exact absurd hge' (not_le.mpr hscore)

/-- Witness for C8: with vector hits `u` at distance 1 and `v` at
distance 3 and equal lexical scores, `u` precedes `v` in the combined
output and `[v, u]` is not a sublist of it. -/
theorem hybrid_monotonicity_witness :
    (0 < simOfDistance 1 ∧ simOfDistance 1 ≤ 1)
    ∧ simOfDistance 3 < simOfDistance 1
    ∧ ¬ [monoCv, monoCu].Sublist
        (_hybrid_search monoSearch true (some monoIndex) "q" 3 (7/10) (3/10)) := by
  have hnorm : normalizeBm25 [0, 0] = [0, 0] := by
    norm_num [normalizeBm25, max_def]
  have hmap : bm25ScoreMap ["u", "v"] [0, 0] = [("u", 0), ("v", 0)] := by
    simp [bm25ScoreMap, dictInsert]
  have hvs : buildVectorScores [monoHitU, monoHitV]
      = [("u", monoHitU), ("v", monoHitV)] := by
    simp [buildVectorScores, dictInsert, monoHitU, monoHitV]
  have hgu : dictGetD [("u", 0), ("v", 0)] "u" 0 = 0 := by decide
  have hgv : dictGetD [("u", 0), ("v", 0)] "v" 0 = 0 := by decide
  have hu : hybridEntry (7/10) (3/10) [("u", 0), ("v", 0)] monoHitU = monoCu := by
    norm_num [hybridEntry, simOfDistance, VecHit.toCandidate, monoHitU, hgu, monoCu]
  have hv : hybridEntry (7/10) (3/10) [("u", 0), ("v", 0)] monoHitV = monoCv := by
    norm_num [hybridEntry, simOfDistance, VecHit.toCandidate, monoHitV, hgv, monoCv]
  have hlist : hybridList (7/10) (3/10) [("u", 0), ("v", 0)] [monoHitU, monoHitV]
      = [monoCu, monoCv] := by
    rw [hybridList, hvs]
    simp only [List.map_cons, List.map_nil, hu, hv]
  have hgecuv : hybridGe monoCu monoCv := by
    show (monoCv.hybrid_score.getD 0) ≤ (monoCu.hybrid_score.getD 0)
    norm_num [monoCu, monoCv]
  have hsort : sortByHybrid [monoCu, monoCv] = [monoCu, monoCv] := by
    rw [sortByHybrid, List.insertionSort, List.insertionSort, List.insertionSort,
      List.orderedInsert, List.orderedInsert, if_pos hgecuv]
  have hconc : _hybrid_search monoSearch true (some monoIndex) "q" 3 (7/10) (3/10)
      = [monoCu, monoCv] := by
    rw [_hybrid_search]
    simp only [monoSearch, monoIndex, Bool.not_true, Bool.false_eq_true, if_false]
    rw [hnorm, hmap, hlist, hsort]
    rfl
  refine ⟨(hybrid_monotonicity.1 1 (by norm_num)),
    hybrid_monotonicity.2.1 1 3 (by norm_num) (by norm_num), ?_⟩
  refine hybrid_monotonicity.2.2 monoSearch monoIndex "q" 3 (7/10) (3/10)
    monoCu monoCv 1 3 (by norm_num) (by norm_num) (by norm_num) ?_ ?_ rfl rfl rfl
  · rw [hconc]; exact List.mem_cons_self _ _
  · rw [hconc]; exact List.mem_cons_of_mem _ (List.mem_singleton.mpr rfl)

/-- C10: `_cosine_similarity` is total and guarded against division by
zero: when either vector has zero Euclidean norm it returns exactly 0,
and otherwise it returns `dot(a,b) / (norm(a) * norm(b))` with a
provably non-zero denominator (it cannot raise: it is a total
function). -/
theorem cosine_similarity_guarded (a b : List ℝ) :
    (norm2 a = 0 ∨ norm2 b = 0 → _cosine_similarity a b = 0)
    ∧ (¬ (norm2 a = 0 ∨ norm2 b = 0) →
        _cosine_similarity a b = dotList a b / (norm2 a * norm2 b)
        ∧ norm2 a * norm2 b ≠ 0) := by
  constructor
  · intro h
    rw [_cosine_similarity, if_pos h]
  · intro h
    rw [_cosine_similarity, if_neg h]
    push_neg at h
    exact ⟨rfl, mul_ne_zero h.1 h.2⟩

/-- Witness for C10 at the zero vector. -/
theorem cosine_similarity_guarded_witness :
    (norm2 [(0:ℝ)] = 0 ∨ norm2 [(1:ℝ)] = 0)
    ∧ _cosine_similarity [(0:ℝ)] [(1:ℝ)] = 0 := by
  have h0 : norm2 [(0:ℝ)] = 0 := by simp [norm2, sumSq]
  exact ⟨Or.inl h0, (cosine_similarity_guarded [(0:ℝ)] [(1:ℝ)]).1 (Or.inl h0)⟩
